import Mathlib

/-!
Verification of the bedanno annotation engine (src/lib.rs) against its
specification.  The Rust code is shallowly embedded: machine integers (u64,
u8) are modelled as `Nat` (no addition or multiplication is performed on
coordinates, and the two subtractions in the ranking key are analysed
explicitly where u64 underflow matters); panics (`expect`, `assert!`) are
modelled as `Except` errors; the external record-format parsers (the
`bio::io::bed` reader, `GffLine::from_line` tokenisation, gzip, CLI) are
outside the modelled core, which therefore consumes already-decoded query
records and target records exactly as §6 of the spec describes the two
input streams.
-/

namespace Bedanno

/-- Models the Rust struct `Interval { start: u64, end: u64 }`.
`end` is a Lean keyword, so the field is called `stop`. -/
structure Interval where
  start : Nat
  stop : Nat
deriving DecidableEq, Repr

/-- The derived lexicographic `Ord` on `Interval` (on `(start, end)`),
as produced by `#[derive(PartialOrd, Ord)]` in the Rust source. -/
def Interval.lt (a b : Interval) : Bool :=
  decide (a.start < b.start) || (decide (a.start = b.start) && decide (a.stop < b.stop))

/-- `Interval::overlapping` from src/lib.rs:
`other.start <= self.start && self.start < other.end
 || self.start <= other.start && other.start <= self.end`. -/
def Interval.overlapping (a b : Interval) : Bool :=
  (decide (b.start ≤ a.start) && decide (a.start < b.stop))
    || (decide (a.start ≤ b.start) && decide (b.start ≤ a.stop))

/-- Models the Rust struct `GffLine`.  The fourth field (named after the
ninth GTF column it carries) is called `attr_col` here. -/
structure GffLine where
  contig : String
  interval : Interval
  feature_type : String
  attr_col : String
deriving DecidableEq, Repr

/-- Run-time failures of the engine.  In the Rust source
`malformedAttribute` is the `expect` panic in `Annotation::from_gff_line`,
`outOfOrderContig` is the `anyhow!` error returned by `run`, and
`assertFail` is the `assert!` panic in `resolve_all_overlaps`. -/
inductive RunErr where
  | malformedAttribute (fragment : String)
  | outOfOrderContig (contig : String) (idx : Nat)
  | assertFail (q : Interval)
deriving DecidableEq, Repr

/-- Models the Rust struct named `Annotation` in src/lib.rs (shortened to
`Anno` here): the ranking payload derived from one GFF line. -/
structure Anno where
  interval : Interval
  gene_name : Option String
  feature_type : String
  mane : Bool
  tsl : String
  level : Nat
  transcript_type : String
deriving DecidableEq, Repr

/-- Rust `str::split` with a character predicate pattern: separators are
removed, `n` separators yield `n + 1` (possibly empty) items; the empty
string yields one empty item. -/
def splitPredGo (p : Char → Bool) : List Char → List Char → List (List Char)
  | acc, [] => [acc.reverse]
  | acc, c :: cs => if p c then acc.reverse :: splitPredGo p [] cs else splitPredGo p (c :: acc) cs

def splitPred (p : Char → Bool) (l : List Char) : List (List Char) :=
  splitPredGo p [] l

/-- Rust `str::trim_matches(c)`: removes every leading and trailing
occurrence of the character. -/
def trimChar (c : Char) (l : List Char) : List Char :=
  ((l.dropWhile (fun x => x == c)).reverse.dropWhile (fun x => x == c)).reverse

/-- Rust `str::parse::<u8>()` : optional leading `+`, then one or more
ASCII digits, value at most 255; anything else is a parse error. -/
def rust_parse_u8 (s : String) : Option Nat :=
  let cs := s.toList
  let ds := if cs.head? = some '+' then cs.tail else cs
  if ds ≠ [] ∧ ds.all (fun c => c.isDigit) then
    let n := ds.foldl (fun acc c => acc * 10 + (c.toNat - 48)) 0
    if n ≤ 255 then some n else none
  else none

/-- One fragment of the attribute column, as processed inside the `for`
loop of `Annotation::from_gff_line`: trim spaces, split on the first of
`=` or space into key and value, strip surrounding double quotes from the
value.  A fragment with no separator makes the second `kv.next()` return
`None` and the `expect(attr)` panic: modelled as the error case. -/
def parse_attr_frag (frag : String) : Except RunErr (String × String) :=
  match splitPred (fun c => c == '=' || c == ' ') (trimChar ' ' frag.toList) with
  | k :: v :: _ => .ok (String.mk k, String.mk (trimChar '"' v))
  | _ => .error (.malformedAttribute frag)

/-- The attribute `HashMap` of `Annotation::from_gff_line`, as the list of
(key, value) insertions in order: split the column on `;`, drop fragments
that are empty before trimming, parse each fragment. -/
def attrsGo : List (String × String) → List String → Except RunErr (List (String × String))
  | m, [] => .ok m
  | m, frag :: rest =>
    match parse_attr_frag frag with
    | .error e => .error e
    | .ok kv => attrsGo (m ++ [kv]) rest

def attrsOf (s : String) : Except RunErr (List (String × String)) :=
  attrsGo []
    (((splitPred (fun c => c == ';') s.toList).map String.mk).filter (fun f => f != ""))

/-- `HashMap::get` on the insertion list: the last inserted value for the
key wins, exactly as `HashMap::insert` overwrites. -/
def hmGet (m : List (String × String)) (k : String) : Option String :=
  (m.reverse.find? (fun p => p.1 == k)).map (fun p => p.2)

/-- `Annotation::from_gff_line` from src/lib.rs. -/
def Anno.from_gff_line (line : GffLine) : Except RunErr Anno :=
  match attrsOf line.attr_col with
  | .error e => .error e
  | .ok attributes => .ok ⟨line.interval,
    hmGet attributes "gene_name",
    line.feature_type,
    (match hmGet attributes "tag" with
     | some x => x == "MANE_Select"
     | none => false),
    (hmGet attributes "transcript_support_level").getD "NA",
    (match hmGet attributes "level" with
     | some x => (rust_parse_u8 x).getD 255
     | none => 255),
    (hmGet attributes "transcript_type").getD ""⟩

/-- Models `sorted_list::SortedList::insert` (the container used for both
query and target collections): the list is kept sorted by key; a
(key, value) pair already present is not inserted again (the crate keeps
key-value pairs unique); a new value for an existing key goes after the
existing run of equal keys (values in insertion order). -/
def slInsert {α : Type} [DecidableEq α] (l : List (Interval × α)) (k : Interval) (v : α) :
    List (Interval × α) :=
  match l with
  | [] => [(k, v)]
  | (k2, v2) :: rest =>
    if Interval.lt k k2 then (k, v) :: (k2, v2) :: rest
    else if k = k2 ∧ v = v2 then (k2, v2) :: rest
    else (k2, v2) :: slInsert rest k v

/-- The per-contig query collection: the fold of `SortedList::insert`
performed by the query-side grouping loop of `run`. -/
def qset (ivs : List Interval) : List (Interval × Unit) :=
  ivs.foldl (fun acc iv => slInsert acc iv ()) []

/-- The loop body of `find_overlaps` from src/lib.rs, one step per query.
The target cursor together with the one-record `trg` buffer is modelled as
the remaining target list (the buffer always holds the list head).
Step 1 drops targets whose `end` is before the query's `start`; step 2
takes overlapping targets until the first non-overlapping one (which stays
buffered); the emitted list is the still-overlapping suffix of the
previous window followed by the newly collected targets. -/
def find_overlaps_go (prev : List GffLine) :
    List Interval → List GffLine → List (List GffLine)
  | [], _ => []
  | q :: qs, ts =>
    let ts1 := ts.dropWhile (fun rec => decide (rec.interval.stop < q.start))
    let newOv := ts1.takeWhile (fun rec => Interval.overlapping q rec.interval)
    let ts2 := ts1.dropWhile (fun rec => Interval.overlapping q rec.interval)
    ((prev.dropWhile (fun rec => !(Interval.overlapping q rec.interval))) ++ newOv)
      :: find_overlaps_go newOv qs ts2

/-- `find_overlaps` from src/lib.rs: for each query in sorted order, the
list of targets the sweep pairs with it. -/
def find_overlaps (queries : List Interval) (targets : List GffLine) :
    List (List GffLine) :=
  find_overlaps_go [] queries targets

/-- The `feature_type_rank` map of `resolve_all_overlaps`:
index in the fixed priority list, 255 for any other feature type. -/
def feature_type_rank (ft : String) : Nat :=
  (["CDS", "stop_codon", "start_codon", "UTR", "exon", "transcript",
    "gene"].findIdx? (fun x => x == ft)).getD 255

/-- The `tsl_rank` map of `resolve_all_overlaps`. -/
def tsl_rank (t : String) : Nat :=
  (["1", "2", "3", "4", "5", "NA"].findIdx? (fun x => x == t)).getD 255

/-- The six-component ranking key type of `resolve_all_overlaps`. -/
abbrev RankKey := Nat × Nat × Nat × Nat × Nat × Nat

/-- Lexicographic `≤` on the six-tuple, i.e. the derived `Ord` the Rust
`sort_by_key` call compares with. -/
def keyLe (a b : RankKey) : Bool :=
  decide (a.1 < b.1) || (decide (a.1 = b.1)
    && (decide (a.2.1 < b.2.1) || (decide (a.2.1 = b.2.1)
      && (decide (a.2.2.1 < b.2.2.1) || (decide (a.2.2.1 = b.2.2.1)
        && (decide (a.2.2.2.1 < b.2.2.2.1) || (decide (a.2.2.2.1 = b.2.2.2.1)
          && (decide (a.2.2.2.2.1 < b.2.2.2.2.1) || (decide (a.2.2.2.2.1 = b.2.2.2.2.1)
            && decide (a.2.2.2.2.2 ≤ b.2.2.2.2.2))))))))))

/-- The ranking key computed inside the `sort_by_key` closure of
`resolve_all_overlaps`:
(feature-type rank, MANE rank, TSL rank, level, protein-coding rank,
one-sided overlap extent).  The protein-coding component is
`(transcript_type != "protein_coding") as u8`, i.e. 0 or 1.  The last
component is a u64 subtraction in Rust; here it is `Nat` subtraction, and
the underflow question is settled separately (claim C10). -/
def rankKey (q : Interval) (anno : Anno) : RankKey :=
  (feature_type_rank anno.feature_type,
   if anno.mane then 0 else 255,
   tsl_rank anno.tsl,
   anno.level,
   if anno.transcript_type = "protein_coding" then 0 else 1,
   if q.start < anno.interval.start then q.stop - anno.interval.start
   else anno.interval.stop - q.start)

/-- The ranking key exactly as the specification words it (§4.5), used
only to compare the spec's claim with the code's `rankKey`: field 3 ranks
an absent `transcript_support_level` attribute 255 (the code instead
defaults the value to "NA", rank 5), and field 5 uses 255 rather than 1
for non-protein-coding.  Computed from the target line's attribute column
so that attribute absence is observable. -/
def specRankKey (q : Interval) (t : GffLine) : Except RunErr RankKey :=
  match attrsOf (GffLine.attr_col t) with
  | .error e => .error e
  | .ok attributes => .ok (feature_type_rank (GffLine.feature_type t),
    (match hmGet attributes "tag" with
     | some x => if x = "MANE_Select" then 0 else 255
     | none => 255),
    (match hmGet attributes "transcript_support_level" with
     | some x => tsl_rank x
     | none => 255),
    (match hmGet attributes "level" with
     | some x => (rust_parse_u8 x).getD 255
     | none => 255),
    (match hmGet attributes "transcript_type" with
     | some x => if x = "protein_coding" then 0 else 255
     | none => 255),
    if q.start < (GffLine.interval t).start then q.stop - (GffLine.interval t).start
    else (GffLine.interval t).stop - q.start)

/-- Stable insertion into a key-sorted list: the new element goes before
the first element of greater-or-incomparable key.  Used to model Rust's
stable `sort_by_key` (any two stable sorts by the same total preorder
produce the same list). -/
def sInsertByKey {α : Type} (key : α → RankKey) (x : α) : List α → List α
  | [] => [x]
  | y :: ys => if keyLe (key x) (key y) then x :: y :: ys else y :: sInsertByKey key x ys

/-- Stable sort by `rankKey`, modelling `annotations.sort_by_key(...)`. -/
def sortByKey {α : Type} (key : α → RankKey) : List α → List α
  | [] => []
  | x :: xs => sInsertByKey key x (sortByKey key xs)

/-- `gfflines[i].iter().map(Annotation::from_gff_line).collect()` for one
query: the first malformed line panics, i.e. errors here. -/
def collectAnnos : List GffLine → Except RunErr (List Anno)
  | [] => .ok []
  | l :: ls =>
    match Anno.from_gff_line l with
    | .error e => .error e
    | .ok a =>
      match collectAnnos ls with
      | .error e => .error e
      | .ok rest => .ok (a :: rest)

/-- The body of `resolve_all_overlaps` for one query: build the
`Annotation` values (a malformed attribute fragment panics, modelled as an
error), check the `assert!(q.overlapping(&anno.interval))` that the Rust
sort evaluates inside the key closure (the closure runs only when the
vector has at least two elements, since sorting a shorter vector performs
no comparison), stable-sort by the six-field key and take the first. -/
def resolveOverlaps (q : Interval) (lines : List GffLine) :
    Except RunErr (Option Anno) :=
  match collectAnnos lines with
  | .error e => .error e
  | .ok annos =>
    if 2 ≤ annos.length ∧ annos.any (fun a => !(Interval.overlapping q a.interval)) then
      .error (.assertFail q)
    else
      .ok (sortByKey (rankKey q) annos).head?

/-- The query loop of `resolve_all_overlaps`: queries in order, each with
its sweep output; the first panic-modelled error wins. -/
def resolveEach : List (Interval × List GffLine) → Except RunErr (List (Option Anno))
  | [] => .ok []
  | p :: ps =>
    match resolveOverlaps p.1 p.2 with
    | .error e => .error e
    | .ok a =>
      match resolveEach ps with
      | .error e => .error e
      | .ok rest => .ok (a :: rest)

/-- `resolve_all_overlaps` from src/lib.rs: one choice per query,
in query order. -/
def resolve_all_overlaps (queries : List Interval) (gfflines : List (List GffLine)) :
    Except RunErr (List (Option Anno)) :=
  resolveEach (queries.zip gfflines)

/-- One decoded query-stream record (§6 of the spec): a BED line already
parsed by the external `bio::io::bed` reader. -/
structure BedRecord where
  chrom : String
  start : Nat
  stop : Nat
deriving DecidableEq, Repr

/-- One output record as written by `run`: chrom, start, end and the
name column (gene name or the placeholder "."). -/
structure OutRecord where
  chrom : String
  start : Nat
  stop : Nat
  name : String
deriving DecidableEq, Repr

/-- A contig's target collection (`SortedList<Interval, GffLine>`). -/
abbrev SL := List (Interval × GffLine)

/-- The `targets_buffer: HashMap<String, SortedList<Interval, GffLine>>`
of `run`, keyed by contig name; only keyed access is ever performed on it
in the Rust source, so an association list with unique keys is a faithful
model. -/
abbrev TBuf := List (String × SL)

def tbufFind (tbuf : TBuf) (c : String) : Option SL :=
  (tbuf.find? (fun p => p.1 == c)).map (fun p => p.2)

def tbufRemove (tbuf : TBuf) (c : String) : TBuf :=
  tbuf.filter (fun p => !(p.1 == c))

/-- `targets_buffer.entry(c).or_insert(SortedList::new()).insert(k, v)`. -/
def tbufInsert (tbuf : TBuf) (c : String) (k : Interval) (v : GffLine) : TBuf :=
  match tbuf with
  | [] => [(c, slInsert [] k v)]
  | (c2, sl) :: rest =>
    if c2 = c then (c2, slInsert sl k v) :: rest
    else (c2, sl) :: tbufInsert rest c k v

/-- The target-side scan of `run` for the current contig: same-contig
records accumulate into the result; a foreign record seen after at least
one same-contig record terminates the scan (and stays buffered, i.e. at
the head of the returned remainder); a foreign record seen before any
same-contig record goes into the future buffer under its own contig. -/
def collectT (cur : String) (tbuf : TBuf) (res : SL) :
    List GffLine → SL × TBuf × List GffLine
  | [] => (res, tbuf, [])
  | rec :: rest =>
    if rec.contig ≠ cur ∧ 0 < res.length then (res, tbuf, rec :: rest)
    else if rec.contig ≠ cur then
      collectT cur (tbufInsert tbuf rec.contig rec.interval rec) res rest
    else collectT cur tbuf (slInsert res rec.interval rec) rest

/-- The target-acquisition step of the contig loop: take the current
contig's targets from the future buffer if present (leaving the target
stream untouched), otherwise scan the target stream. -/
def targetsStep (cur : String) (tbuf : TBuf) (ts : List GffLine) :
    SL × TBuf × List GffLine :=
  match tbufFind tbuf cur with
  | some sl => (sl, tbufRemove tbuf cur, ts)
  | none => collectT cur tbuf [] ts

/-- Everything `run` does for one contig once its query set is collected:
take the contig's targets from the future buffer if present, otherwise
scan the target stream; sweep; rank; emit one output record per query key
(name = gene name of the chosen target, placeholder "." otherwise).
Returns the emitted records plus the updated future buffer and the
remaining target stream. -/
def processContig (cur : String) (tbuf : TBuf) (ts : List GffLine)
    (queries : List (Interval × Unit)) :
    Except RunErr (List OutRecord × TBuf × List GffLine) :=
  let step := targetsStep cur tbuf ts
  let qkeys := queries.map (fun p => p.1)
  let overl := find_overlaps qkeys (step.1.map (fun p => p.2))
  match resolve_all_overlaps qkeys overl with
  | .error e => .error e
  | .ok annos =>
    .ok ((qkeys.zip annos).map (fun p =>
      ⟨cur, p.1.start, p.1.stop,
        match p.2 with
        | some a => a.gene_name.getD "."
        | none => "."⟩), step.2.1, step.2.2)

/-- The contig loop of `run`, fused over the enumerated query stream.
`cur` is `cur_contig` (initially "", then set from the first record),
`seen` is `seen_qry_contigs`, `queries` is `cur_queries`.  A record of the
current contig is inserted; a record of a new contig either aborts (contig
already seen: `OutOfOrderContig`), or finishes the current contig and
starts the next one with that record (the Rust code buffers the record in
`buf_qry` and re-reads it first in the next loop iteration, which is the
same thing).  At end of stream the last contig is processed; an empty
query set returns `Ok` with no further output. -/
def runAux (cur : String) (seen : List String) (queries : List (Interval × Unit))
    (tbuf : TBuf) (ts : List GffLine) :
    List (Nat × BedRecord) → Except RunErr (List OutRecord)
  | [] =>
    if queries.isEmpty then .ok []
    else match processContig cur tbuf ts queries with
      | .error e => .error e
      | .ok r => .ok r.1
  | (i, rec) :: rest =>
    let cur2 := if cur = "" then rec.chrom else cur
    if rec.chrom = cur2 then
      runAux cur2 seen (slInsert queries (Interval.mk rec.start rec.stop) ()) tbuf ts rest
    else if seen.contains rec.chrom then .error (.outOfOrderContig rec.chrom i)
    else if queries.isEmpty then .ok []
    else match processContig cur2 tbuf ts queries with
      | .error e => .error e
      | .ok r =>
        match runAux rec.chrom (cur2 :: seen) [(Interval.mk rec.start rec.stop, ())]
            r.2.1 r.2.2 rest with
        | .error e => .error e
        | .ok out2 => .ok (r.1 ++ out2)

/-- `run` from src/lib.rs on decoded streams: the query records are
enumerated (the line indices used in error messages), the target records
are consumed on demand by the per-contig scans.  A successful run returns
the full ordered output; a fatal condition (out-of-order contig, malformed
attribute panic, overlap-assertion panic) returns the error. -/
def run (qs : List BedRecord) (ts : List GffLine) : Except RunErr (List OutRecord) :=
  runAux "" [] [] [] ts qs.enum

/-- Big-step execution relation of the contig loop, mirroring `runAux`
branch for branch (same guards, same state updates); `run qs ts`
executions are `RunSem "" [] [] [] ts qs.enum`.  Stated relationally so
that determinism is a statement about all executions rather than a
tautology about a function. -/
inductive RunSem : String → List String → List (Interval × Unit) → TBuf →
    List GffLine → List (Nat × BedRecord) → Except RunErr (List OutRecord) → Prop where
  | nilEmpty {cur seen queries tbuf ts} :
      queries.isEmpty = true →
      RunSem cur seen queries tbuf ts [] (.ok [])
  | nilProc {cur seen queries tbuf ts r} :
      queries.isEmpty = false →
      processContig cur tbuf ts queries = .ok r →
      RunSem cur seen queries tbuf ts [] (.ok r.1)
  | nilProcErr {cur seen queries tbuf ts e} :
      queries.isEmpty = false →
      processContig cur tbuf ts queries = .error e →
      RunSem cur seen queries tbuf ts [] (.error e)
  | consSame {cur seen queries tbuf ts i rec rest o} :
      rec.chrom = (if cur = "" then rec.chrom else cur) →
      RunSem (if cur = "" then rec.chrom else cur) seen
        (slInsert queries ⟨rec.start, rec.stop⟩ ()) tbuf ts rest o →
      RunSem cur seen queries tbuf ts ((i, rec) :: rest) o
  | consOutOfOrder {cur seen queries tbuf ts i rec rest} :
      ¬ rec.chrom = (if cur = "" then rec.chrom else cur) →
      seen.contains rec.chrom = true →
      RunSem cur seen queries tbuf ts ((i, rec) :: rest)
        (.error (.outOfOrderContig rec.chrom i))
  | consBoundaryEmpty {cur seen queries tbuf ts i rec rest} :
      ¬ rec.chrom = (if cur = "" then rec.chrom else cur) →
      seen.contains rec.chrom = false →
      queries.isEmpty = true →
      RunSem cur seen queries tbuf ts ((i, rec) :: rest) (.ok [])
  | consBoundaryErr {cur seen queries tbuf ts i rec rest e} :
      ¬ rec.chrom = (if cur = "" then rec.chrom else cur) →
      seen.contains rec.chrom = false →
      queries.isEmpty = false →
      processContig (if cur = "" then rec.chrom else cur) tbuf ts queries = .error e →
      RunSem cur seen queries tbuf ts ((i, rec) :: rest) (.error e)
  | consBoundaryOk {cur seen queries tbuf ts i rec rest r o2} :
      ¬ rec.chrom = (if cur = "" then rec.chrom else cur) →
      seen.contains rec.chrom = false →
      queries.isEmpty = false →
      processContig (if cur = "" then rec.chrom else cur) tbuf ts queries = .ok r →
      RunSem rec.chrom ((if cur = "" then rec.chrom else cur) :: seen)
        [(⟨rec.start, rec.stop⟩, ())] r.2.1 r.2.2 rest o2 →
      RunSem cur seen queries tbuf ts ((i, rec) :: rest)
        (match o2 with | .error e2 => .error e2 | .ok out2 => .ok (r.1 ++ out2))

/-- A query stream presented as its contig-block decomposition: each block
is a contig name together with the intervals of that block's records, and
the stream is their concatenation in order.  Every query stream with no
empty contig name decomposes this way into maximal same-contig runs. -/
def blockStream : List (String × List Interval) → List BedRecord
  | [] => []
  | b :: rest => b.2.map (fun iv => ⟨b.1, iv.start, iv.stop⟩) ++ blockStream rest

/-- Per-block expected output coordinates: one entry per distinct interval
of the block, in ascending order (the keys of the block's `qset`),
concatenated in block order. -/
def blocksOut : List (String × List Interval) → List (String × Nat × Nat)
  | [] => []
  | b :: rest =>
    ((qset b.2).map (fun p => p.1)).map (fun iv => (b.1, iv.start, iv.stop))
      ++ blocksOut rest

/-! ### Basic properties of the ranking order and of the interval order -/

theorem keyLe_refl (a : RankKey) : keyLe a a = true := by
  simp [keyLe]

theorem keyLe_total (a b : RankKey) : keyLe a b = true ∨ keyLe b a = true := by
  simp only [keyLe, Bool.or_eq_true, Bool.and_eq_true, decide_eq_true_eq]
  omega

theorem keyLe_trans (a b c : RankKey) (h1 : keyLe a b = true) (h2 : keyLe b c = true) :
    keyLe a c = true := by
  simp only [keyLe, Bool.or_eq_true, Bool.and_eq_true, decide_eq_true_eq] at h1 h2 ⊢
  omega

theorem interval_lt_trans (a b c : Interval) (h1 : Interval.lt a b = true)
    (h2 : Interval.lt b c = true) : Interval.lt a c = true := by
  simp only [Interval.lt, Bool.or_eq_true, Bool.and_eq_true, decide_eq_true_eq] at h1 h2 ⊢
  omega

theorem interval_lt_ne (a b : Interval) (h : Interval.lt a b = true) : a ≠ b := by
  simp only [Interval.lt, Bool.or_eq_true, Bool.and_eq_true, decide_eq_true_eq] at h
  rcases a with ⟨s1, e1⟩
  rcases b with ⟨s2, e2⟩
  intro he
  cases he
  omega

theorem interval_lt_cases (a b : Interval) :
    Interval.lt a b = true ∨ a = b ∨ Interval.lt b a = true := by
  simp only [Interval.lt, Bool.or_eq_true, Bool.and_eq_true, decide_eq_true_eq]
  rcases a with ⟨s1, e1⟩
  rcases b with ⟨s2, e2⟩
  simp only [Interval.mk.injEq]
  omega

/-! ### Claim C3: the overlap predicate -/

/-- C3: for all intervals `a` and `b`, `overlapping(a, b)` returns true iff
`(b.start ≤ a.start ∧ a.start < b.end) ∨ (a.start ≤ b.start ∧ b.start ≤ a.end)`;
with `≤` (not `<`) on `a.end` in the second clause, so intervals touching at
`a.end = b.start` are reported overlapping in that direction. -/
theorem c3_overlapping_iff (a b : Interval) :
    Interval.overlapping a b = true ↔
      ((b.start ≤ a.start ∧ a.start < b.stop) ∨ (a.start ≤ b.start ∧ b.start ≤ a.stop)) := by
  simp [Interval.overlapping]

/-! ### Claim C7: empty query stream -/

/-- C7: on an empty query stream `run` terminates successfully with zero
output records, for every target stream. -/
theorem c7_empty_query_stream (ts : List GffLine) : run [] ts = .ok [] := rfl

/-! ### Claim C1: the sweep-correctness assertion can fail -/

/-- C1 (code bug): with nested queries [0,10) and [2,3) and targets [0,5)
and [8,9), the sweep carries the non-overlapping target [8,9) from the
first query's window into the second query's list (its `skip_while` only
prunes a leading run), so `resolve_all_overlaps` reaches its
`assert!(q.overlapping(..))` with a non-overlapping pair and the run
aborts with the assertion failure. -/
theorem c1_assert_fails :
    run [⟨"chr1", 0, 10⟩, ⟨"chr1", 2, 3⟩]
        [⟨"chr1", ⟨0, 5⟩, "gene", "gene_name=T1;"⟩,
         ⟨"chr1", ⟨8, 9⟩, "gene", "gene_name=T2;"⟩]
      = .error (.assertFail ⟨2, 3⟩)
    ∧ (find_overlaps [⟨0, 10⟩, ⟨2, 3⟩]
        [⟨"chr1", ⟨0, 5⟩, "gene", "gene_name=T1;"⟩,
         ⟨"chr1", ⟨8, 9⟩, "gene", "gene_name=T2;"⟩]).get? 1
      = some [⟨"chr1", ⟨0, 5⟩, "gene", "gene_name=T1;"⟩,
              ⟨"chr1", ⟨8, 9⟩, "gene", "gene_name=T2;"⟩]
    ∧ Interval.overlapping ⟨2, 3⟩ ⟨8, 9⟩ = false :=
  ⟨rfl, rfl, rfl⟩

/-! ### Claim C10: the ranking-key subtractions -/

/-- C10 (amended): for a query and target with `overlapping(q, t)` true and
the target satisfying the data-model invariant `start ≤ end`, the u64
subtractions of the overlap-extent key component cannot underflow: in the
`q.start < t.start` branch `t.start ≤ q.end`, and otherwise
`q.start ≤ t.end` (equality is possible, e.g. a zero-width target at
`q.start`, so the claim's strict `q.start < t.end` is weakened to `≤`). -/
theorem c10_rank_subtractions_safe (q t : Interval)
    (hov : Interval.overlapping q t = true) (hval : t.start ≤ t.stop) :
    (q.start < t.start → t.start ≤ q.stop)
    ∧ (¬ q.start < t.start → q.start ≤ t.stop) := by
  simp only [Interval.overlapping, Bool.or_eq_true, Bool.and_eq_true,
    decide_eq_true_eq] at hov
  omega

theorem c10_witness :
    ((Interval.mk 5 9).start < (Interval.mk 5 7).start
      → (Interval.mk 5 7).start ≤ (Interval.mk 5 9).stop)
    ∧ (¬ (Interval.mk 5 9).start < (Interval.mk 5 7).start
      → (Interval.mk 5 9).start ≤ (Interval.mk 5 7).stop) :=
  c10_rank_subtractions_safe ⟨5, 9⟩ ⟨5, 7⟩ (by decide) (by decide)

/-- C10 (counterexample to the claim as stated): the malformed target
interval [10,3) (from a GTF line with end < start - 1) overlaps the query
[10,15) under `overlapping`, reaches the ranking-key computation (it is in
the second query's sweep list, whose length 2 makes the Rust sort evaluate
the key closure), is in the `else` branch (`¬ q.start < t.start`), yet has
`t.end < q.start`, so `t.end - q.start` underflows in u64 — refuting the
claimed `q.start < t.end`. -/
theorem c10_counterexample :
    Interval.overlapping ⟨10, 15⟩ ⟨10, 3⟩ = true
    ∧ ¬ (Interval.mk 10 15).start < (Interval.mk 10 3).start
    ∧ (Interval.mk 10 3).stop < (Interval.mk 10 15).start
    ∧ (find_overlaps [⟨2, 20⟩, ⟨10, 15⟩]
        [⟨"c", ⟨10, 3⟩, "gene", "gene_name=T;"⟩,
         ⟨"c", ⟨10, 15⟩, "gene", "gene_name=U;"⟩]).get? 1
      = some [⟨"c", ⟨10, 3⟩, "gene", "gene_name=T;"⟩,
              ⟨"c", ⟨10, 15⟩, "gene", "gene_name=U;"⟩] :=
  ⟨rfl, by decide, by decide, rfl⟩

/-! ### Counterexamples for claims C4 and C2 -/

/-- C4 (counterexample): two identical query records yield a single output
record — output rows are deduplicated, contradicting "exactly one output
record per input query record" and "no deduplication". -/
theorem c4_counterexample :
    run [⟨"chr1", 5, 10⟩, ⟨"chr1", 5, 10⟩] [] = .ok [⟨"chr1", 5, 10, "."⟩]
    ∧ ([⟨"chr1", 5, 10⟩, ⟨"chr1", 5, 10⟩] : List BedRecord).length = 2
    ∧ ([(⟨"chr1", 5, 10, "."⟩ : OutRecord)]).length = 1 :=
  ⟨rfl, rfl, rfl⟩

/-- C2 (counterexample): with target A (no `transcript_support_level`
attribute, `level=2`) and target B (`transcript_support_level=6`,
`level=1`) both overlapping the query, the claim's key ranks both TSLs 255
and so B (level 1) is its unique minimum — but the code defaults the
absent TSL to "NA" (rank 5), so it returns A. -/
theorem c2_counterexample :
    resolveOverlaps ⟨0, 10⟩
        [⟨"c", ⟨0, 10⟩, "gene", "gene_name=A;level=2;"⟩,
         ⟨"c", ⟨0, 10⟩, "gene", "gene_name=B;transcript_support_level=6;level=1;"⟩]
      = .ok (some ⟨⟨0, 10⟩, some "A", "gene", false, "NA", 2, ""⟩)
    ∧ specRankKey ⟨0, 10⟩ ⟨"c", ⟨0, 10⟩, "gene", "gene_name=A;level=2;"⟩
      = .ok (6, 255, 255, 2, 255, 10)
    ∧ specRankKey ⟨0, 10⟩
        ⟨"c", ⟨0, 10⟩, "gene", "gene_name=B;transcript_support_level=6;level=1;"⟩
      = .ok (6, 255, 255, 1, 255, 10)
    ∧ keyLe (6, 255, 255, 1, 255, 10) (6, 255, 255, 2, 255, 10) = true
    ∧ keyLe (6, 255, 255, 2, 255, 10) (6, 255, 255, 1, 255, 10) = false :=
  ⟨rfl, rfl, rfl, rfl, rfl⟩

/-! ### The head of the stable sort: first minimum in input order -/

/-- The head of the stable sort is a key-minimal element, namely the first
one in the input order: the input decomposes as `l1 ++ a :: l2` where every
element of `l1` has a strictly greater key. -/
theorem sortByKey_head {α : Type} (key : α → RankKey) :
    ∀ l : List α, l ≠ [] →
      ∃ a l1 l2, (sortByKey key l).head? = some a ∧ l = l1 ++ a :: l2 ∧
        (∀ b ∈ l, keyLe (key a) (key b) = true) ∧
        (∀ b ∈ l1, keyLe (key b) (key a) = false) := by
  intro l
  induction l with
  | nil => intro h; exact absurd rfl h
  | cons x xs ih =>
    intro _
    by_cases hxs : xs = []
    · subst hxs
      refine ⟨x, [], [], rfl, rfl, ?_, ?_⟩
      · intro b hb
        rcases List.mem_singleton.mp hb with rfl
        exact keyLe_refl _
      · intro b hb
        exact absurd hb (List.not_mem_nil b)
    · obtain ⟨a, l1, l2, hhead, hdecomp, hmin, hstrict⟩ := ih hxs
      obtain ⟨t, hsort⟩ : ∃ t, sortByKey key xs = a :: t := by
        cases hs : sortByKey key xs with
        | nil => rw [hs] at hhead; exact absurd hhead (by simp)
        | cons h0 t0 =>
          rw [hs] at hhead
          simp only [List.head?_cons, Option.some.injEq] at hhead
          exact ⟨t0, by rw [hhead]⟩
      by_cases hle : keyLe (key x) (key a) = true
      · refine ⟨x, [], xs, ?_, rfl, ?_, ?_⟩
        · show (sInsertByKey key x (sortByKey key xs)).head? = some x
          rw [hsort]
          simp [sInsertByKey, hle]
        · intro b hb
          rcases List.mem_cons.mp hb with rfl | hbxs
          · exact keyLe_refl _
          · exact keyLe_trans _ _ _ hle (hmin b hbxs)
        · intro b hb
          exact absurd hb (List.not_mem_nil b)
      · have hle2 : keyLe (key x) (key a) = false := by
          cases hkb : keyLe (key x) (key a) with
          | false => rfl
          | true => exact absurd hkb hle
        refine ⟨a, x :: l1, l2, ?_, by rw [hdecomp]; rfl, ?_, ?_⟩
        · show (sInsertByKey key x (sortByKey key xs)).head? = some a
          rw [hsort]
          simp [sInsertByKey, hle2]
        · intro b hb
          rcases List.mem_cons.mp hb with rfl | hbxs
          · rcases keyLe_total (key b) (key a) with h | h
            · exact absurd h (by simp [hle2])
            · exact h
          · exact hmin b hbxs
        · intro b hb
          rcases List.mem_cons.mp hb with rfl | hbl1
          · exact hle2
          · exact hstrict b hbl1

/-- A successful `collectAnnos` yields one `Anno` per input line. -/
theorem collectAnnos_length : ∀ {ls : List GffLine} {annos : List Anno},
    collectAnnos ls = .ok annos → annos.length = ls.length := by
  intro ls
  induction ls with
  | nil =>
    intro annos h
    simp only [collectAnnos] at h
    cases h
    rfl
  | cons l ls ih =>
    intro annos h
    simp only [collectAnnos] at h
    cases hf : Anno.from_gff_line l with
    | error e => rw [hf] at h; exact absurd h (by simp)
    | ok a =>
      rw [hf] at h
      cases hr : collectAnnos ls with
      | error e => rw [hr] at h; exact absurd h (by simp)
      | ok rest =>
        rw [hr] at h
        cases h
        simp [ih hr]

/-! ### Claim C2 (amended): the Rank Resolver -/

/-- C2 (amended): for a query and its list of overlapping targets (every
derived record overlapping the query, all attribute columns well-formed),
the Rank Resolver returns none on the empty list, and otherwise returns
the first input-order element minimal under the ascending lexicographic
six-field key `rankKey` — which is the claim's key except that an absent
`transcript_support_level` defaults to "NA" (rank 5, only unrecognized
values rank 255), and the protein-coding component is 0/1 (order-equal to
the claimed 0/255).  Ties after all six fields go to input order. -/
theorem c2_rank_resolver (q : Interval) (lines : List GffLine) (annos : List Anno)
    (hparse : collectAnnos lines = .ok annos)
    (hov : ∀ a ∈ annos, Interval.overlapping q a.interval = true) :
    (lines = [] → resolveOverlaps q lines = .ok none)
    ∧ (lines ≠ [] → ∃ a l1 l2, resolveOverlaps q lines = .ok (some a)
        ∧ annos = l1 ++ a :: l2
        ∧ (∀ b ∈ annos, keyLe (rankKey q a) (rankKey q b) = true)
        ∧ (∀ b ∈ l1, keyLe (rankKey q b) (rankKey q a) = false)) := by
  have hany : annos.any (fun a => !(Interval.overlapping q a.interval)) = false := by
    rw [List.any_eq_false]
    intro a ha
    simp [hov a ha]
  have hres : resolveOverlaps q lines = .ok (sortByKey (rankKey q) annos).head? := by
    simp [resolveOverlaps, hparse, hany]
  constructor
  · intro h0
    subst h0
    have h1 : annos = [] := by
      simp only [collectAnnos] at hparse
      cases hparse
      rfl
    rw [hres, h1]
    rfl
  · intro hne
    have hannone : annos ≠ [] := by
      intro h0
      apply hne
      have := collectAnnos_length hparse
      rw [h0] at this
      exact List.length_eq_zero.mp this.symm
    obtain ⟨a, l1, l2, hhead, hdec, hmin, hstrict⟩ := sortByKey_head (rankKey q) annos hannone
    exact ⟨a, l1, l2, by rw [hres, hhead], hdec, hmin, hstrict⟩

theorem c2_witness :
    (([⟨"c", ⟨0, 10⟩, "gene", "gene_name=A;level=2;"⟩] : List GffLine) = []
      → resolveOverlaps ⟨0, 10⟩ [⟨"c", ⟨0, 10⟩, "gene", "gene_name=A;level=2;"⟩] = .ok none)
    ∧ (([⟨"c", ⟨0, 10⟩, "gene", "gene_name=A;level=2;"⟩] : List GffLine) ≠ []
      → ∃ a l1 l2,
        resolveOverlaps ⟨0, 10⟩ [⟨"c", ⟨0, 10⟩, "gene", "gene_name=A;level=2;"⟩] = .ok (some a)
        ∧ ([(⟨⟨0, 10⟩, some "A", "gene", false, "NA", 2, ""⟩ : Anno)]) = l1 ++ a :: l2
        ∧ (∀ b ∈ ([(⟨⟨0, 10⟩, some "A", "gene", false, "NA", 2, ""⟩ : Anno)]),
            keyLe (rankKey ⟨0, 10⟩ a) (rankKey ⟨0, 10⟩ b) = true)
        ∧ (∀ b ∈ l1, keyLe (rankKey ⟨0, 10⟩ b) (rankKey ⟨0, 10⟩ a) = false)) :=
  c2_rank_resolver ⟨0, 10⟩ [⟨"c", ⟨0, 10⟩, "gene", "gene_name=A;level=2;"⟩]
    [⟨⟨0, 10⟩, some "A", "gene", false, "NA", 2, ""⟩] rfl (by decide)

/-! ### Properties of the sorted-list container -/

theorem interval_lt_irrefl (a : Interval) : ¬ Interval.lt a a = true := by
  simp [Interval.lt]

theorem interval_lt_asymm (a b : Interval) (h : Interval.lt a b = true) :
    ¬ Interval.lt b a = true := by
  simp only [Interval.lt, Bool.or_eq_true, Bool.and_eq_true, decide_eq_true_eq] at h ⊢
  omega

theorem slInsert_mem {α : Type} [DecidableEq α] (l : List (Interval × α)) (k : Interval)
    (v : α) (x : Interval × α) : x ∈ slInsert l k v ↔ x ∈ l ∨ x = (k, v) := by
  induction l with
  | nil => simp [slInsert]
  | cons p rest ih =>
    obtain ⟨k2, v2⟩ := p
    have hunf : slInsert ((k2, v2) :: rest) k v =
        if Interval.lt k k2 = true then (k, v) :: (k2, v2) :: rest
        else if k = k2 ∧ v = v2 then (k2, v2) :: rest
        else (k2, v2) :: slInsert rest k v := rfl
    rw [hunf]
    by_cases h1 : Interval.lt k k2 = true
    · rw [if_pos h1]
      simp only [List.mem_cons]
      tauto
    · rw [if_neg h1]
      by_cases h2 : k = k2 ∧ v = v2
      · rw [if_pos h2]
        have hx : (k, v) = (k2, v2) := by rw [h2.1, h2.2]
        simp only [List.mem_cons]
        constructor
        · exact Or.inl
        · rintro (h | h)
          · exact h
          · rw [h, hx]
            exact Or.inl rfl
      · rw [if_neg h2]
        simp only [List.mem_cons, ih]
        tauto

theorem slInsert_unit_pairwise (l : List (Interval × Unit)) (k : Interval)
    (h : List.Pairwise (fun a b => Interval.lt a.1 b.1 = true) l) :
    List.Pairwise (fun a b => Interval.lt a.1 b.1 = true) (slInsert l k ()) := by
  induction l with
  | nil => simp [slInsert]
  | cons p rest ih =>
    obtain ⟨k2, v2⟩ := p
    obtain ⟨⟩ := v2
    rw [List.pairwise_cons] at h
    obtain ⟨hhead, htail⟩ := h
    have hunf : slInsert ((k2, ()) :: rest) k () =
        if Interval.lt k k2 = true then (k, ()) :: (k2, ()) :: rest
        else if k = k2 ∧ () = () then (k2, ()) :: rest
        else (k2, ()) :: slInsert rest k () := rfl
    rw [hunf]
    by_cases h1 : Interval.lt k k2 = true
    · rw [if_pos h1]
      rw [List.pairwise_cons]
      refine ⟨?_, List.pairwise_cons.mpr ⟨hhead, htail⟩⟩
      intro b hb
      rcases List.mem_cons.mp hb with rfl | hbrest
      · exact h1
      · exact interval_lt_trans _ _ _ h1 (hhead b hbrest)
    · rw [if_neg h1]
      by_cases h2 : k = k2
      · rw [if_pos ⟨h2, rfl⟩]
        exact List.pairwise_cons.mpr ⟨hhead, htail⟩
      · rw [if_neg (by simp [h2])]
        have hlt : Interval.lt k2 k = true := by
          rcases interval_lt_cases k k2 with h | h | h
          · exact absurd h h1
          · exact absurd h h2
          · exact h
        rw [List.pairwise_cons]
        refine ⟨?_, ih htail⟩
        intro b hb
        rcases (slInsert_mem rest k () b).mp hb with hbrest | rfl
        · exact hhead b hbrest
        · exact hlt

theorem slInsert_noop {α : Type} [DecidableEq α] :
    ∀ (l : List (Interval × α)) (k : Interval) (v : α),
      List.Pairwise (fun a b => Interval.lt a.1 b.1 = true) l →
      (k, v) ∈ l → slInsert l k v = l := by
  intro l
  induction l with
  | nil =>
    intro k v _ hmem
    exact absurd hmem (List.not_mem_nil _)
  | cons p rest ih =>
    intro k v hpw hmem
    obtain ⟨k2, v2⟩ := p
    rw [List.pairwise_cons] at hpw
    obtain ⟨hhead, htail⟩ := hpw
    have hunf : slInsert ((k2, v2) :: rest) k v =
        if Interval.lt k k2 = true then (k, v) :: (k2, v2) :: rest
        else if k = k2 ∧ v = v2 then (k2, v2) :: rest
        else (k2, v2) :: slInsert rest k v := rfl
    rcases List.mem_cons.mp hmem with heq | hrest
    · have hk : k = k2 := congrArg Prod.fst heq
      have hv : v = v2 := congrArg Prod.snd heq
      have h1 : ¬ Interval.lt k k2 = true := by
        rw [← hk]
        exact interval_lt_irrefl k
      rw [hunf, if_neg h1, if_pos ⟨hk, hv⟩]
    · have hlt : Interval.lt k2 k = true := hhead (k, v) hrest
      have h1 : ¬ Interval.lt k k2 = true := interval_lt_asymm _ _ hlt
      have h2 : ¬(k = k2 ∧ v = v2) := by
        rintro ⟨rfl, rfl⟩
        exact interval_lt_irrefl k hlt
      rw [hunf, if_neg h1, if_neg h2, ih k v htail hrest]

/-! ### The per-contig query set: sorted, deduplicated, same members -/

theorem qset_go_pairwise : ∀ (ivs : List Interval) (acc : List (Interval × Unit)),
    List.Pairwise (fun a b => Interval.lt a.1 b.1 = true) acc →
    List.Pairwise (fun a b => Interval.lt a.1 b.1 = true)
      (ivs.foldl (fun acc iv => slInsert acc iv ()) acc) := by
  intro ivs
  induction ivs with
  | nil => intro acc h; exact h
  | cons iv ivs ih =>
    intro acc h
    exact ih _ (slInsert_unit_pairwise acc iv h)

theorem qset_pairwise (ivs : List Interval) :
    List.Pairwise (fun a b => Interval.lt a.1 b.1 = true) (qset ivs) :=
  qset_go_pairwise ivs [] (List.Pairwise.nil)

theorem qset_go_mem : ∀ (ivs : List Interval) (acc : List (Interval × Unit)) (iv : Interval),
    ((iv, ()) ∈ ivs.foldl (fun acc iv => slInsert acc iv ()) acc ↔
      (iv, ()) ∈ acc ∨ iv ∈ ivs) := by
  intro ivs
  induction ivs with
  | nil => intro acc iv; simp
  | cons x ivs ih =>
    intro acc iv
    rw [List.foldl_cons, ih, slInsert_mem]
    constructor
    · rintro ((h | h) | h)
      · exact Or.inl h
      · obtain ⟨rfl, -⟩ := Prod.mk.injEq iv () x () ▸ h
        exact Or.inr (List.mem_cons_self _ _)
      · exact Or.inr (List.mem_cons_of_mem _ h)
    · rintro (h | h)
      · exact Or.inl (Or.inl h)
      · rcases List.mem_cons.mp h with rfl | h
        · exact Or.inl (Or.inr rfl)
        · exact Or.inr h

theorem qset_mem (ivs : List Interval) (iv : Interval) :
    (iv, ()) ∈ qset ivs ↔ iv ∈ ivs := by
  rw [qset, qset_go_mem]
  simp

theorem qset_keys_nodup (ivs : List Interval) : ((qset ivs).map Prod.fst).Nodup := by
  rw [List.Nodup, List.pairwise_map]
  exact (qset_pairwise ivs).imp (fun h => interval_lt_ne _ _ h)

/-! ### Claim C5: query deduplication inside one contig -/

/-- C5: within one contig the collected query set holds each distinct
interval exactly once (its sorted key list has no duplicates and its
members are exactly the inserted intervals), and inserting an interval
already present is a no-op on the collection. -/
theorem c5_query_dedup (ivs : List Interval) (iv : Interval) :
    ((qset ivs).map Prod.fst).Nodup
    ∧ ((iv, ()) ∈ qset ivs ↔ iv ∈ ivs)
    ∧ (iv ∈ ivs → qset (ivs ++ [iv]) = qset ivs) := by
  refine ⟨qset_keys_nodup ivs, qset_mem ivs iv, ?_⟩
  intro hmem
  rw [qset, List.foldl_append, List.foldl_cons, List.foldl_nil]
  exact slInsert_noop _ _ _ (qset_pairwise ivs) ((qset_mem ivs iv).mpr hmem)

theorem c5_witness :
    ((qset [⟨0, 1⟩]).map Prod.fst).Nodup
    ∧ ((⟨0, 1⟩, ()) ∈ qset [⟨0, 1⟩] ↔ (⟨0, 1⟩ : Interval) ∈ [(⟨0, 1⟩ : Interval)])
    ∧ qset ([⟨0, 1⟩] ++ [⟨0, 1⟩]) = qset [⟨0, 1⟩] :=
  ⟨(c5_query_dedup [⟨0, 1⟩] ⟨0, 1⟩).1, (c5_query_dedup [⟨0, 1⟩] ⟨0, 1⟩).2.1,
    (c5_query_dedup [⟨0, 1⟩] ⟨0, 1⟩).2.2 (List.mem_singleton.mpr rfl)⟩

/-! ### Shape of the per-contig processing output -/

theorem find_overlaps_go_length :
    ∀ (qs : List Interval) (prev : List GffLine) (ts : List GffLine),
      (find_overlaps_go prev qs ts).length = qs.length := by
  intro qs
  induction qs with
  | nil => intro prev ts; rfl
  | cons q qs ih =>
    intro prev ts
    simp only [find_overlaps_go, List.length_cons]
    rw [ih]

theorem find_overlaps_length (qs : List Interval) (ts : List GffLine) :
    (find_overlaps qs ts).length = qs.length :=
  find_overlaps_go_length qs [] ts

theorem resolveEach_length : ∀ {ps : List (Interval × List GffLine)}
    {annos : List (Option Anno)}, resolveEach ps = .ok annos → annos.length = ps.length := by
  intro ps
  induction ps with
  | nil =>
    intro annos h
    simp only [resolveEach] at h
    cases h
    rfl
  | cons p ps ih =>
    intro annos h
    simp only [resolveEach] at h
    cases hr : resolveOverlaps p.1 p.2 with
    | error e => rw [hr] at h; exact absurd h (by simp)
    | ok a =>
      rw [hr] at h
      cases hrest : resolveEach ps with
      | error e => rw [hrest] at h; exact absurd h (by simp)
      | ok rest =>
        rw [hrest] at h
        cases h
        simp [ih hrest]

/-- A successful `processContig` emits one record per query key, in query
order, carrying the contig name and the query's coordinates. -/
theorem processContig_coords (cur : String) (tbuf : TBuf) (ts : List GffLine)
    (queries : List (Interval × Unit)) (r : List OutRecord × TBuf × List GffLine)
    (h : processContig cur tbuf ts queries = .ok r) :
    r.1.map (fun o => (OutRecord.chrom o, OutRecord.start o, OutRecord.stop o))
      = (queries.map (fun p => p.1)).map (fun iv => (cur, iv.start, iv.stop)) := by
  simp only [processContig] at h
  rcases hst : targetsStep cur tbuf ts with ⟨tg, tb2, ts2⟩
  rw [hst] at h
  cases hres : resolve_all_overlaps (queries.map (fun p => p.1))
      (find_overlaps (queries.map (fun p => p.1)) ((tg, tb2, ts2).1.map (fun p => p.2))) with
  | error e => rw [hres] at h; exact absurd h (by simp)
  | ok annos =>
    rw [hres] at h
    have hlen : annos.length = (queries.map (fun p => p.1)).length := by
      have h1 : resolveEach ((queries.map (fun p => p.1)).zip
          (find_overlaps (queries.map (fun p => p.1))
            ((tg, tb2, ts2).1.map (fun p => p.2)))) = .ok annos := hres
      have h2 := resolveEach_length h1
      rw [List.length_zip, find_overlaps_length, Nat.min_self] at h2
      exact h2
    have hr1 := (Except.ok.injEq _ _).mp h
    rw [← hr1]
    rw [List.map_map]
    conv_rhs => rw [← List.map_fst_zip (queries.map (fun p => p.1)) annos hlen.ge,
      List.map_map]
    rfl

/-! ### Walking a same-contig run of query records -/

/-- Reading a block of query records that all carry the current contig
only inserts their intervals into the query collection. -/
theorem runAux_walk (c : String) :
    ∀ (l : List (Nat × BedRecord)), (∀ p ∈ l, (p.2).chrom = c) →
    ∀ (seen : List String) (queries : List (Interval × Unit)) (tbuf : TBuf)
      (ts : List GffLine) (rest : List (Nat × BedRecord)),
      runAux c seen queries tbuf ts (l ++ rest)
        = runAux c seen
            (l.foldl (fun acc p => slInsert acc ⟨(p.2).start, (p.2).stop⟩ ()) queries)
            tbuf ts rest := by
  intro l
  induction l with
  | nil => intro _ seen queries tbuf ts rest; rfl
  | cons p l ih =>
    intro hp seen queries tbuf ts rest
    obtain ⟨i, rec⟩ := p
    have hrec : rec.chrom = c := hp (i, rec) (List.mem_cons_self _ _)
    have hstep : runAux c seen queries tbuf ts ((i, rec) :: (l ++ rest))
        = runAux (if c = "" then rec.chrom else c) seen
            (slInsert queries ⟨rec.start, rec.stop⟩ ()) tbuf ts (l ++ rest) := by
      simp only [runAux]
      rw [if_pos]
      rcases eq_or_ne c "" with h | h
      · rw [if_pos h]
      · rw [if_neg h, hrec]
    have hc2 : (if c = "" then rec.chrom else c) = c := by
      rcases eq_or_ne c "" with h | h
      · rw [if_pos h, hrec]
      · rw [if_neg h]
    rw [List.cons_append, hstep, hc2,
      ih (fun p hp2 => hp p (List.mem_cons_of_mem _ hp2)), List.foldl_cons]

/-- The very first query record sets the current contig from its own
chrom field and is inserted. -/
theorem runAux_start (i : Nat) (rec : BedRecord) (seen : List String)
    (queries : List (Interval × Unit)) (tbuf : TBuf) (ts : List GffLine)
    (rest : List (Nat × BedRecord)) :
    runAux "" seen queries tbuf ts ((i, rec) :: rest)
      = runAux rec.chrom seen (slInsert queries ⟨rec.start, rec.stop⟩ ()) tbuf ts rest := by
  simp only [runAux]
  have h1 : (if True then rec.chrom else "") = rec.chrom := if_pos trivial
  rw [h1, if_pos rfl]

theorem enumFrom_chrom (c : String) : ∀ (ivs : List Interval) (n : Nat),
    ∀ p ∈ List.enumFrom n (ivs.map (fun iv => (⟨c, iv.start, iv.stop⟩ : BedRecord))),
      (p.2).chrom = c := by
  intro ivs
  induction ivs with
  | nil =>
    intro n p hp
    simp at hp
  | cons iv ivs ih =>
    intro n p hp
    rw [List.map_cons, List.enumFrom_cons] at hp
    rcases List.mem_cons.mp hp with rfl | hp2
    · rfl
    · exact ih (n + 1) p hp2

theorem enumFrom_fold_inserts (c : String) : ∀ (ivs : List Interval) (n : Nat)
    (q0 : List (Interval × Unit)),
    (List.enumFrom n (ivs.map (fun iv => (⟨c, iv.start, iv.stop⟩ : BedRecord)))).foldl
        (fun acc p => slInsert acc ⟨(p.2).start, (p.2).stop⟩ ()) q0
      = ivs.foldl (fun acc iv => slInsert acc iv ()) q0 := by
  intro ivs
  induction ivs with
  | nil => intro n q0; rfl
  | cons iv ivs ih =>
    intro n q0
    rw [List.map_cons, List.enumFrom_cons, List.foldl_cons, List.foldl_cons]
    exact ih (n + 1) _

/-! ### Claim C8: malformed attribute fragments -/

theorem splitPredGo_no_sep (p : Char → Bool) :
    ∀ (l : List Char) (acc : List Char), (∀ c ∈ l, p c = false) →
      splitPredGo p acc l = [acc.reverse ++ l] := by
  intro l
  induction l with
  | nil =>
    intro acc _
    simp [splitPredGo]
  | cons c cs ih =>
    intro acc hp
    have hc : p c = false := hp c (List.mem_cons_self _ _)
    simp only [splitPredGo, hc, Bool.false_eq_true, if_false]
    rw [ih (c :: acc) (fun d hd => hp d (List.mem_cons_of_mem _ hd))]
    simp

theorem splitPred_no_sep (p : Char → Bool) (l : List Char)
    (hp : ∀ c ∈ l, p c = false) : splitPred p l = [l] := by
  rw [splitPred, splitPredGo_no_sep p l [] hp]
  rfl

theorem parse_attr_frag_no_sep (frag : String)
    (hsep : ∀ ch ∈ trimChar ' ' frag.toList, ch ≠ '=' ∧ ch ≠ ' ') :
    parse_attr_frag frag = .error (.malformedAttribute frag) := by
  have hsplit : splitPred (fun c => c == '=' || c == ' ') (trimChar ' ' frag.toList)
      = [trimChar ' ' frag.toList] := by
    apply splitPred_no_sep
    intro c hc
    obtain ⟨h1, h2⟩ := hsep c hc
    simp [h1, h2]
  rw [parse_attr_frag, hsplit]

theorem parse_attr_frag_shape (f : String) (e : RunErr)
    (h : parse_attr_frag f = .error e) : e = .malformedAttribute f := by
  rw [parse_attr_frag] at h
  cases hsp : splitPred (fun c => c == '=' || c == ' ') (trimChar ' ' f.toList) with
  | nil =>
    rw [hsp] at h
    exact ((Except.error.injEq _ _).mp h).symm
  | cons k rest =>
    cases rest with
    | nil =>
      rw [hsp] at h
      exact ((Except.error.injEq _ _).mp h).symm
    | cons v more =>
      rw [hsp] at h
      exact absurd h (by simp)

theorem attrsGo_err : ∀ (frags : List String) (m : List (String × String)) (f : String),
    f ∈ frags → parse_attr_frag f = .error (.malformedAttribute f) →
    ∃ g, attrsGo m frags = .error (.malformedAttribute g) := by
  intro frags
  induction frags with
  | nil =>
    intro m f hmem _
    exact absurd hmem (List.not_mem_nil f)
  | cons h t ih =>
    intro m f hmem hperr
    cases hp : parse_attr_frag h with
    | error e =>
      refine ⟨h, ?_⟩
      rw [parse_attr_frag_shape h e hp] at hp
      simp only [attrsGo, hp]
    | ok kv =>
      rcases List.mem_cons.mp hmem with rfl | hmt
      · rw [hp] at hperr
        exact absurd hperr (by simp)
      · obtain ⟨g, hg⟩ := ih (m ++ [kv]) f hmt hperr
        refine ⟨g, ?_⟩
        simp only [attrsGo, hp]
        exact hg

/-- C8: if some fragment of the attribute column (split on `;`, nonempty,
still nonempty after trimming spaces) contains neither `=` nor a space,
parsing the record's attributes fails with a `MalformedAttribute` error
(the `expect` panic in the Rust code) instead of silently dropping the
fragment. -/
theorem c8_malformed_attribute (line : GffLine) (frag : String)
    (hmem : frag ∈ (splitPred (fun c => c == ';')
      (GffLine.attr_col line).toList).map String.mk)
    (hne : trimChar ' ' frag.toList ≠ [])
    (hsep : ∀ ch ∈ trimChar ' ' frag.toList, ch ≠ '=' ∧ ch ≠ ' ') :
    ∃ g, Anno.from_gff_line line = .error (.malformedAttribute g) := by
  have hfne : frag ≠ "" := by
    intro h0
    apply hne
    rw [h0]
    rfl
  have hfilter : frag ∈ ((splitPred (fun c => c == ';')
      (GffLine.attr_col line).toList).map String.mk).filter (fun f => f != "") :=
    List.mem_filter.mpr ⟨hmem, by simp [hfne]⟩
  obtain ⟨g, hg⟩ := attrsGo_err _ [] frag hfilter (parse_attr_frag_no_sep frag hsep)
  refine ⟨g, ?_⟩
  simp only [Anno.from_gff_line, attrsOf, hg]

theorem c8_witness :
    ∃ g, Anno.from_gff_line ⟨"c", ⟨0, 1⟩, "gene", "gene_nameX;"⟩
      = .error (.malformedAttribute g) :=
  c8_malformed_attribute ⟨"c", ⟨0, 1⟩, "gene", "gene_nameX;"⟩ "gene_nameX"
    (by decide) (by decide) (by decide)

/-! ### Claim C6: out-of-order contig detection -/

theorem slInsert_ne_nil {α : Type} [DecidableEq α] (l : List (Interval × α))
    (k : Interval) (v : α) : slInsert l k v ≠ [] := by
  cases l with
  | nil => simp [slInsert]
  | cons p rest =>
    obtain ⟨k2, v2⟩ := p
    have hunf : slInsert ((k2, v2) :: rest) k v =
        if Interval.lt k k2 = true then (k, v) :: (k2, v2) :: rest
        else if k = k2 ∧ v = v2 then (k2, v2) :: rest
        else (k2, v2) :: slInsert rest k v := rfl
    rw [hunf]
    split_ifs <;> simp

theorem foldl_slInsert_ne_nil : ∀ (ivs : List Interval) (q0 : List (Interval × Unit)),
    q0 ≠ [] → ivs.foldl (fun acc iv => slInsert acc iv ()) q0 ≠ [] := by
  intro ivs
  induction ivs with
  | nil => intro q0 h; exact h
  | cons iv ivs ih =>
    intro q0 _
    rw [List.foldl_cons]
    exact ih _ (slInsert_ne_nil q0 iv ())

/-- A query record of a *different*, not yet seen contig finishes the
current contig: its block is processed and the loop restarts on the new
contig with that record's interval. -/
theorem runAux_boundary (cur : String) (i : Nat) (rec : BedRecord) (seen : List String)
    (queries : List (Interval × Unit)) (tbuf : TBuf) (ts : List GffLine)
    (rest : List (Nat × BedRecord)) (r : List OutRecord × TBuf × List GffLine)
    (hcur : cur ≠ "") (hne : ¬ rec.chrom = cur) (hseen : seen.contains rec.chrom = false)
    (hq : ¬ queries.isEmpty = true) (hr : processContig cur tbuf ts queries = .ok r) :
    runAux cur seen queries tbuf ts ((i, rec) :: rest)
      = match runAux rec.chrom (cur :: seen) [(⟨rec.start, rec.stop⟩, ())]
            r.2.1 r.2.2 rest with
        | .error e2 => .error e2
        | .ok out2 => .ok (r.1 ++ out2) := by
  simp only [runAux]
  have hc2 : (if cur = "" then rec.chrom else cur) = cur := if_neg hcur
  rw [hc2, if_neg hne, hseen, if_neg Bool.false_ne_true, if_neg hq, hr]

/-- A query record whose contig is different from the current one but
already seen aborts the run with `OutOfOrderContig`. -/
theorem runAux_ooo (cur : String) (i : Nat) (rec : BedRecord) (seen : List String)
    (queries : List (Interval × Unit)) (tbuf : TBuf) (ts : List GffLine)
    (rest : List (Nat × BedRecord))
    (hcur : cur ≠ "") (hne : ¬ rec.chrom = cur) (hseen : seen.contains rec.chrom = true) :
    runAux cur seen queries tbuf ts ((i, rec) :: rest)
      = .error (.outOfOrderContig rec.chrom i) := by
  simp only [runAux]
  have hc2 : (if cur = "" then rec.chrom else cur) = cur := if_neg hcur
  rw [hc2, if_neg hne, if_pos hseen]

/-- C6: a query stream whose contig blocks run `c1, c2, c1` (with `c1`,
`c2` distinct nonempty names and nonempty first and second blocks) aborts
with `OutOfOrderContig` naming `c1` and the index of the offending record,
provided the first block's processing itself raises no panic-modelled
error; the repeated block is never processed. -/
theorem c6_out_of_order (c1 c2 : String) (ps1 ps2 : List Interval) (s e : Nat)
    (tail : List BedRecord) (ts : List GffLine)
    (h1 : c1 ≠ "") (h2 : c2 ≠ "") (h12 : c1 ≠ c2)
    (hp1 : ps1 ≠ []) (hp2 : ps2 ≠ [])
    (hproc : ∃ r, processContig c1 [] ts (qset ps1) = .ok r) :
    run (ps1.map (fun iv => ⟨c1, iv.start, iv.stop⟩)
          ++ (ps2.map (fun iv => ⟨c2, iv.start, iv.stop⟩)
            ++ (⟨c1, s, e⟩ : BedRecord) :: tail)) ts
      = .error (.outOfOrderContig c1 (ps1.length + ps2.length)) := by
  obtain ⟨r, hr⟩ := hproc
  rcases ps1 with _ | ⟨iv1, ps1t⟩
  · exact absurd rfl hp1
  rcases ps2 with _ | ⟨iv2, ps2t⟩
  · exact absurd rfl hp2
  simp only [run, List.map_cons]
  rw [show ∀ l : List BedRecord, List.enum l = List.enumFrom 0 l from fun l => rfl]
  rw [List.enumFrom_append, List.enumFrom_append]
  simp only [List.enumFrom_cons, List.cons_append]
  rw [runAux_start]
  dsimp only
  rw [runAux_walk _ _ (enumFrom_chrom c1 ps1t 1)]
  rw [enumFrom_fold_inserts c1 ps1t 1]
  have hr2 : processContig c1 [] ts
      (ps1t.foldl (fun acc iv => slInsert acc iv ()) (slInsert [] iv1 ())) = .ok r := hr
  rw [runAux_boundary c1 _ _ [] _ [] ts _ r h1 (Ne.symm h12) rfl
    (by simp only [List.isEmpty_iff]
        exact foldl_slInsert_ne_nil _ _ (slInsert_ne_nil _ _ ())) hr2]
  dsimp only
  conv_lhs => rw [runAux_walk _ _ (enumFrom_chrom c2 ps2t _),
    runAux_ooo _ _ _ _ _ _ _ _ h2 h12 (by simp)]
  dsimp only
  simp only [Except.error.injEq, RunErr.outOfOrderContig.injEq, List.length_cons,
    List.length_map, eq_self_iff_true, true_and]
  omega

theorem c6_witness :
    run [⟨"chr1", 0, 5⟩, ⟨"chr2", 0, 5⟩, ⟨"chr1", 7, 9⟩] []
      = .error (.outOfOrderContig "chr1" 2) :=
  c6_out_of_order "chr1" "chr2" [⟨0, 5⟩] [⟨0, 5⟩] 7 9 [] []
    (by decide) (by decide) (by decide) (by decide) (by decide)
    ⟨([⟨"chr1", 0, 5, "."⟩], [], []), rfl⟩

/-! ### Claim C9: determinism of `run` -/

/-- The loop relation is deterministic: the guards of its rules are
mutually exclusive and the state threading is functional. -/
theorem runSem_det : ∀ {cur seen queries tbuf ts l o1},
    RunSem cur seen queries tbuf ts l o1 →
    ∀ {o2}, RunSem cur seen queries tbuf ts l o2 → o1 = o2 := by
  intro cur seen queries tbuf ts l o1 h1
  induction h1 with
  | nilEmpty hq =>
    intro o2 h2
    cases h2 with
    | nilEmpty _ => rfl
    | nilProc hq2 _ => rw [hq] at hq2; cases hq2
    | nilProcErr hq2 _ => rw [hq] at hq2; cases hq2
  | nilProc hq hp =>
    intro o2 h2
    cases h2 with
    | nilEmpty hq2 => rw [hq] at hq2; cases hq2
    | nilProc _ hp2 => rw [hp] at hp2; injection hp2 with hp2; rw [hp2]
    | nilProcErr _ hp2 => rw [hp] at hp2; cases hp2
  | nilProcErr hq hp =>
    intro o2 h2
    cases h2 with
    | nilEmpty hq2 => rw [hq] at hq2; cases hq2
    | nilProc _ hp2 => rw [hp] at hp2; cases hp2
    | nilProcErr _ hp2 => rw [hp] at hp2; injection hp2 with hp2; rw [hp2]
  | consSame hc _ ih =>
    intro o2 h2
    cases h2 with
    | consSame _ hsub2 => exact ih hsub2
    | consOutOfOrder hc2 _ => exact absurd hc hc2
    | consBoundaryEmpty hc2 _ _ => exact absurd hc hc2
    | consBoundaryErr hc2 _ _ _ => exact absurd hc hc2
    | consBoundaryOk hc2 _ _ _ _ => exact absurd hc hc2
  | consOutOfOrder hc hcont =>
    intro o2 h2
    cases h2 with
    | consSame hc2 _ => exact absurd hc2 hc
    | consOutOfOrder _ _ => rfl
    | consBoundaryEmpty _ hcont2 _ => rw [hcont] at hcont2; cases hcont2
    | consBoundaryErr _ hcont2 _ _ => rw [hcont] at hcont2; cases hcont2
    | consBoundaryOk _ hcont2 _ _ _ => rw [hcont] at hcont2; cases hcont2
  | consBoundaryEmpty hc hcont hq =>
    intro o2 h2
    cases h2 with
    | consSame hc2 _ => exact absurd hc2 hc
    | consOutOfOrder _ hcont2 => rw [hcont] at hcont2; cases hcont2
    | consBoundaryEmpty _ _ _ => rfl
    | consBoundaryErr _ _ hq2 _ => rw [hq] at hq2; cases hq2
    | consBoundaryOk _ _ hq2 _ _ => rw [hq] at hq2; cases hq2
  | consBoundaryErr hc hcont hq hp =>
    intro o2 h2
    cases h2 with
    | consSame hc2 _ => exact absurd hc2 hc
    | consOutOfOrder _ hcont2 => rw [hcont] at hcont2; cases hcont2
    | consBoundaryEmpty _ _ hq2 => rw [hq] at hq2; cases hq2
    | consBoundaryErr _ _ _ hp2 => rw [hp] at hp2; injection hp2 with hp2; rw [hp2]
    | consBoundaryOk _ _ _ hp2 _ => rw [hp] at hp2; cases hp2
  | consBoundaryOk hc hcont hq hp _ ih =>
    intro o2 h2
    cases h2 with
    | consSame hc2 _ => exact absurd hc2 hc
    | consOutOfOrder _ hcont2 => rw [hcont] at hcont2; cases hcont2
    | consBoundaryEmpty _ _ hq2 => rw [hq] at hq2; cases hq2
    | consBoundaryErr _ _ _ hp2 => rw [hp] at hp2; cases hp2
    | consBoundaryOk _ _ _ hp2 hsub2 =>
      rw [hp] at hp2
      injection hp2 with hp2
      subst hp2
      rw [ih hsub2]

/-- Every `runAux` computation is an execution of the relation, so the
relation is total and `run` itself is one of its executions. -/
theorem runSem_runAux : ∀ (l : List (Nat × BedRecord)) (cur : String)
    (seen : List String) (queries : List (Interval × Unit)) (tbuf : TBuf)
    (ts : List GffLine),
    RunSem cur seen queries tbuf ts l (runAux cur seen queries tbuf ts l) := by
  intro l
  induction l with
  | nil =>
    intro cur seen queries tbuf ts
    cases hq : queries.isEmpty with
    | true =>
      have hrw : runAux cur seen queries tbuf ts [] = .ok [] := by
        simp only [runAux]
        rw [if_pos hq]
      rw [hrw]
      exact RunSem.nilEmpty hq
    | false =>
      cases hp : processContig cur tbuf ts queries with
      | ok r =>
        have hrw : runAux cur seen queries tbuf ts [] = .ok r.1 := by
          simp only [runAux]
          rw [if_neg (by simp [hq]), hp]
        rw [hrw]
        exact RunSem.nilProc hq hp
      | error e =>
        have hrw : runAux cur seen queries tbuf ts [] = .error e := by
          simp only [runAux]
          rw [if_neg (by simp [hq]), hp]
        rw [hrw]
        exact RunSem.nilProcErr hq hp
  | cons p rest ih =>
    intro cur seen queries tbuf ts
    obtain ⟨i, rec⟩ := p
    by_cases hc : rec.chrom = (if cur = "" then rec.chrom else cur)
    · have hrw : runAux cur seen queries tbuf ts ((i, rec) :: rest)
          = runAux (if cur = "" then rec.chrom else cur) seen
              (slInsert queries ⟨rec.start, rec.stop⟩ ()) tbuf ts rest := by
        simp only [runAux]
        rw [if_pos hc]
      rw [hrw]
      exact RunSem.consSame hc (ih _ _ _ _ _)
    · cases hcont : seen.contains rec.chrom with
      | true =>
        have hrw : runAux cur seen queries tbuf ts ((i, rec) :: rest)
            = .error (.outOfOrderContig rec.chrom i) := by
          simp only [runAux]
          rw [if_neg hc, if_pos hcont]
        rw [hrw]
        exact RunSem.consOutOfOrder hc hcont
      | false =>
        cases hq : queries.isEmpty with
        | true =>
          have hrw : runAux cur seen queries tbuf ts ((i, rec) :: rest) = .ok [] := by
            simp only [runAux]
            rw [if_neg hc, hcont, if_neg Bool.false_ne_true, if_pos hq]
          rw [hrw]
          exact RunSem.consBoundaryEmpty hc hcont hq
        | false =>
          cases hp : processContig (if cur = "" then rec.chrom else cur) tbuf ts queries with
          | error e =>
            have hrw : runAux cur seen queries tbuf ts ((i, rec) :: rest) = .error e := by
              simp only [runAux]
              rw [if_neg hc, hcont, if_neg Bool.false_ne_true, if_neg (by simp [hq]), hp]
            rw [hrw]
            exact RunSem.consBoundaryErr hc hcont hq hp
          | ok r =>
            have hrw : runAux cur seen queries tbuf ts ((i, rec) :: rest)
                = match runAux rec.chrom ((if cur = "" then rec.chrom else cur) :: seen)
                    [(⟨rec.start, rec.stop⟩, ())] r.2.1 r.2.2 rest with
                  | .error e2 => .error e2
                  | .ok out2 => .ok (r.1 ++ out2) := by
              simp only [runAux]
              rw [if_neg hc, hcont, if_neg Bool.false_ne_true, if_neg (by simp [hq]), hp]
            rw [hrw]
            exact RunSem.consBoundaryOk hc hcont hq hp (ih _ _ _ _ _)

/-- C9: `run` is deterministic.  Any two executions of the loop relation
from the same initial state on the same enumerated query stream and the
same target stream produce the same result, and that result is `run`'s
value — so two runs on identical inputs yield identical (byte-identical,
once serialized by the excluded writer) output.  The Rust code iterates no
hash container (its `HashMap`/`HashSet` uses are keyed lookups only), so
no hash-order nondeterminism is left out of the model. -/
theorem c9_deterministic (qs : List BedRecord) (ts : List GffLine)
    (o1 o2 : Except RunErr (List OutRecord))
    (h1 : RunSem "" [] [] [] ts qs.enum o1)
    (h2 : RunSem "" [] [] [] ts qs.enum o2) :
    o1 = o2 ∧ o1 = run qs ts :=
  ⟨runSem_det h1 h2, runSem_det h1 (runSem_runAux qs.enum "" [] [] [] ts)⟩

theorem c9_witness :
    ((Except.ok [] : Except RunErr (List OutRecord)) = .ok [])
    ∧ ((Except.ok [] : Except RunErr (List OutRecord)) = run [] []) :=
  c9_deterministic [] [] (.ok []) (.ok []) (RunSem.nilEmpty rfl) (RunSem.nilEmpty rfl)

/-! ### Claim C4 (amended): per-contig output records of a full run -/

theorem qset_ne_nil (ivs : List Interval) (h : ivs ≠ []) : qset ivs ≠ [] := by
  rcases ivs with _ | ⟨iv, rest⟩
  · exact absurd rfl h
  · intro h0
    have hm := (qset_mem (iv :: rest) iv).mpr (List.mem_cons_self _ _)
    rw [h0] at hm
    exact absurd hm (List.not_mem_nil _)

/-- The error twin of `runAux_boundary`: if processing the finished contig
raises a panic-modelled error, the run propagates it. -/
theorem runAux_boundary_err (cur : String) (i : Nat) (rec : BedRecord) (seen : List String)
    (queries : List (Interval × Unit)) (tbuf : TBuf) (ts : List GffLine)
    (rest : List (Nat × BedRecord)) (e : RunErr)
    (hcur : cur ≠ "") (hne : ¬ rec.chrom = cur) (hseen : seen.contains rec.chrom = false)
    (hq : ¬ queries.isEmpty = true) (hp : processContig cur tbuf ts queries = .error e) :
    runAux cur seen queries tbuf ts ((i, rec) :: rest) = .error e := by
  simp only [runAux]
  have hc2 : (if cur = "" then rec.chrom else cur) = cur := if_neg hcur
  rw [hc2, if_neg hne, hseen, if_neg Bool.false_ne_true, if_neg hq, hp]

/-- `runAux_boundary` with its continuation phrased through `Except.map`,
convenient for inversion. -/
theorem runAux_boundary_map (cur : String) (i : Nat) (rec : BedRecord) (seen : List String)
    (queries : List (Interval × Unit)) (tbuf : TBuf) (ts : List GffLine)
    (rest : List (Nat × BedRecord)) (r : List OutRecord × TBuf × List GffLine)
    (hcur : cur ≠ "") (hne : ¬ rec.chrom = cur) (hseen : seen.contains rec.chrom = false)
    (hq : ¬ queries.isEmpty = true) (hr : processContig cur tbuf ts queries = .ok r) :
    runAux cur seen queries tbuf ts ((i, rec) :: rest)
      = Except.map (fun out2 => r.1 ++ out2)
          (runAux rec.chrom (cur :: seen) [(⟨rec.start, rec.stop⟩, ())]
            r.2.1 r.2.2 rest) := by
  rw [runAux_boundary cur i rec seen queries tbuf ts rest r hcur hne hseen hq hr]
  cases runAux rec.chrom (cur :: seen) [(⟨rec.start, rec.stop⟩, ())] r.2.1 r.2.2 rest with
  | error e2 => rfl
  | ok out2 => rfl

theorem map_eq_ok_inv {α β ε : Type} (f : α → β) (x : Except ε α) (b : β)
    (h : Except.map f x = .ok b) : ∃ a, x = .ok a ∧ b = f a := by
  cases x with
  | error e => exact absurd h (by simp [Except.map])
  | ok a =>
    refine ⟨a, rfl, ?_⟩
    have h2 : (Except.ok (f a) : Except ε β) = .ok b := h
    exact ((Except.ok.injEq _ _).mp h2).symm

/-- The contig loop over the remaining blocks, already inside a contig:
a successful continuation emits the current block's records followed by
one block's worth of records per remaining block.  Block names repeated
from `seen` never reach a successful result (the loop aborts), so no
distinctness of earlier names is assumed. -/
theorem runAux_blocks : ∀ (blocks : List (String × List Interval)) (cur : String)
    (curIvs : List Interval) (seen : List String) (tbuf : TBuf) (ts : List GffLine)
    (n : Nat) (out : List OutRecord),
    cur ≠ "" → curIvs ≠ [] →
    (∀ b ∈ blocks, b.1 ≠ "" ∧ b.2 ≠ []) →
    List.Chain (fun a b => a ≠ b) cur (blocks.map Prod.fst) →
    runAux cur seen (qset curIvs) tbuf ts (List.enumFrom n (blockStream blocks)) = .ok out →
    out.map (fun o => (OutRecord.chrom o, OutRecord.start o, OutRecord.stop o))
      = ((qset curIvs).map (fun p => p.1)).map (fun iv => (cur, iv.start, iv.stop))
        ++ blocksOut blocks := by
  intro blocks
  induction blocks with
  | nil =>
    intro cur curIvs seen tbuf ts n out hcur hne _ _ hrun
    simp only [blockStream, List.enumFrom_nil] at hrun
    simp only [runAux] at hrun
    rw [if_neg (by simp only [List.isEmpty_iff]; exact qset_ne_nil curIvs hne)] at hrun
    cases hproc : processContig cur tbuf ts (qset curIvs) with
    | error e => rw [hproc] at hrun; exact absurd hrun (by simp)
    | ok r =>
      rw [hproc] at hrun
      have hout : r.1 = out := (Except.ok.injEq _ _).mp hrun
      rw [← hout, processContig_coords cur tbuf ts (qset curIvs) r hproc]
      simp [blocksOut]
  | cons b brest ih =>
    obtain ⟨c2, ivs2⟩ := b
    intro cur curIvs seen tbuf ts n out hcur hne hwf hchain hrun
    obtain ⟨hc2, hivs2⟩ := hwf (c2, ivs2) (List.mem_cons_self _ _)
    rcases ivs2 with _ | ⟨iv2, ivs2t⟩
    · exact absurd rfl hivs2
    simp only [List.map_cons] at hchain
    rw [List.chain_cons] at hchain
    obtain ⟨hcc2, hchain2⟩ := hchain
    simp only [blockStream, List.map_cons, List.cons_append, List.enumFrom_cons] at hrun
    rw [List.enumFrom_append] at hrun
    cases hcont : seen.contains c2 with
    | true =>
      rw [runAux_ooo cur _ ⟨c2, iv2.start, iv2.stop⟩ seen (qset curIvs) tbuf ts _
        hcur (Ne.symm hcc2) hcont] at hrun
      exact absurd hrun (by simp)
    | false =>
      cases hproc : processContig cur tbuf ts (qset curIvs) with
      | error e =>
        rw [runAux_boundary_err cur _ ⟨c2, iv2.start, iv2.stop⟩ seen (qset curIvs) tbuf ts _ e
          hcur (Ne.symm hcc2) hcont
          (by simp only [List.isEmpty_iff]; exact qset_ne_nil curIvs hne) hproc] at hrun
        exact absurd hrun (by simp)
      | ok r =>
        rw [runAux_boundary_map cur _ ⟨c2, iv2.start, iv2.stop⟩ seen (qset curIvs) tbuf ts _ r
          hcur (Ne.symm hcc2) hcont
          (by simp only [List.isEmpty_iff]; exact qset_ne_nil curIvs hne) hproc] at hrun
        dsimp only at hrun
        obtain ⟨out2, hsub, hout⟩ := map_eq_ok_inv _ _ _ hrun
        rw [runAux_walk _ _ (enumFrom_chrom c2 ivs2t _)] at hsub
        rw [enumFrom_fold_inserts c2 ivs2t _] at hsub
        have hcoords2 := ih c2 (iv2 :: ivs2t) (cur :: seen) r.2.1 r.2.2 _ out2
          hc2 (List.cons_ne_nil _ _) (fun b hb => hwf b (List.mem_cons_of_mem _ hb))
          hchain2 hsub
        rw [hout, List.map_append, processContig_coords cur tbuf ts (qset curIvs) r hproc,
          hcoords2]
        simp only [blocksOut, List.append_assoc]

/-- C4 (amended): for every contig of an arbitrary run, a successful run
emits exactly one output record per *distinct* query interval of that
contig's block (not per input record), carrying the contig name and the
query's coordinates, in ascending `(start, end)` order of the block's
deduplicated sorted query collection `qset`, the blocks' outputs appearing
in block order.  Each block's collection has strictly sorted (hence
duplicate-free) keys which are exactly the block's intervals, so the
output equals one-record-per-input-record in input order exactly when
every block is already strictly increasing and duplicate-free; duplicated
query rows are deduplicated and out-of-order rows are reordered.  The
hypotheses only say that `blocks` is the stream's block decomposition:
maximal same-contig runs (adjacent names differ), nonempty, with nonempty
contig names. -/
theorem c4_per_contig_output (blocks : List (String × List Interval)) (ts : List GffLine)
    (out : List OutRecord)
    (hwf : ∀ b ∈ blocks, b.1 ≠ "" ∧ b.2 ≠ [])
    (hadj : List.Chain' (fun a b => a ≠ b) (blocks.map Prod.fst))
    (hrun : run (blockStream blocks) ts = .ok out) :
    out.map (fun o => (OutRecord.chrom o, OutRecord.start o, OutRecord.stop o))
      = blocksOut blocks
    ∧ ∀ b ∈ blocks, List.Pairwise (fun a b2 => Interval.lt a.1 b2.1 = true) (qset b.2)
        ∧ ∀ iv, ((iv, ()) ∈ qset b.2 ↔ iv ∈ b.2) := by
  refine ⟨?_, fun b _ => ⟨qset_pairwise b.2, fun iv => qset_mem b.2 iv⟩⟩
  cases blocks with
  | nil =>
    have h2 : Except.ok ([] : List OutRecord) = .ok out := hrun
    rw [← (Except.ok.injEq _ _).mp h2]
    rfl
  | cons b brest =>
    obtain ⟨c1, ivs1⟩ := b
    obtain ⟨hc1, hivs1⟩ := hwf (c1, ivs1) (List.mem_cons_self _ _)
    rcases ivs1 with _ | ⟨iv1, ivs1t⟩
    · exact absurd rfl hivs1
    simp only [run, blockStream, List.map_cons, List.cons_append] at hrun
    rw [show ∀ l : List BedRecord, List.enum l = List.enumFrom 0 l from fun l => rfl] at hrun
    simp only [List.enumFrom_cons] at hrun
    rw [List.enumFrom_append] at hrun
    rw [runAux_start] at hrun
    dsimp only at hrun
    rw [runAux_walk _ _ (enumFrom_chrom c1 ivs1t 1)] at hrun
    rw [enumFrom_fold_inserts c1 ivs1t 1] at hrun
    have hchain : List.Chain (fun a b => a ≠ b) c1 (brest.map Prod.fst) := by
      simp only [List.map_cons] at hadj
      exact hadj
    simp only [blocksOut]
    exact runAux_blocks brest c1 (iv1 :: ivs1t) [] [] ts _ out hc1
      (List.cons_ne_nil _ _) (fun b hb => hwf b (List.mem_cons_of_mem _ hb)) hchain hrun

theorem c4_witness :
    (([(⟨"chr1", 5, 10, "."⟩ : OutRecord), ⟨"chr2", 0, 7, "G2"⟩, ⟨"chr3", 2, 4, "."⟩]).map
        (fun o => (OutRecord.chrom o, OutRecord.start o, OutRecord.stop o))
      = blocksOut [("chr1", [⟨5, 10⟩]), ("chr2", [⟨0, 7⟩]), ("chr3", [⟨2, 4⟩, ⟨2, 4⟩])])
    ∧ ∀ b ∈ ([("chr1", [⟨5, 10⟩]), ("chr2", [⟨0, 7⟩]),
          ("chr3", [⟨2, 4⟩, ⟨2, 4⟩])] : List (String × List Interval)),
        List.Pairwise (fun a b2 => Interval.lt a.1 b2.1 = true) (qset b.2)
        ∧ ∀ iv, ((iv, ()) ∈ qset b.2 ↔ iv ∈ b.2) :=
  c4_per_contig_output
    [("chr1", [⟨5, 10⟩]), ("chr2", [⟨0, 7⟩]), ("chr3", [⟨2, 4⟩, ⟨2, 4⟩])]
    [⟨"chr2", ⟨0, 500⟩, "gene", "gene_name=G2;"⟩]
    [⟨"chr1", 5, 10, "."⟩, ⟨"chr2", 0, 7, "G2"⟩, ⟨"chr3", 2, 4, "."⟩]
    (by decide)
    (by exact List.Chain.cons (by decide) (List.Chain.cons (by decide) List.Chain.nil))
    rfl

end Bedanno
